import Mathlib

/-!
Shallow embedding of src/tsp.c: a nearest-neighbour TSP search run over a
range of start cities that is statically partitioned across a number of
worker threads, keeping the globally best tour.

Modelling conventions:
* C machine integers are modelled as Lean `Int` (no overflow occurs in the
  scenarios the claims quantify over; `INT_MAX` is the literal 2^31 - 1 used
  by the source as the sentinel for "no best yet").
* C integer division truncates toward zero, which is `Int.tdiv`.
* `std::vector` stores that are only ever accessed in bounds are modelled as
  total functions updated pointwise (`upd`); `resize(n, 0)` becomes the
  all-zero function.
* `sqrt(delx*delx + dely*dely) + 0.5` truncated to `int` computes, for the
  coordinate magnitudes in scope, the exact round-half-up of the Euclidean
  distance; it is embedded as the exact integer square root (`isqrt`)
  in the formula `(isqrt (4*m) + 1) / 2`, which equals
  floor(sqrt m + 1/2) for every natural m.
* The process-global outcome (configuration error message + exit(-1),
  abnormal termination by undefined behaviour, or a printed tour) is the
  inductive `Fate`.
* Threads are sequentialised: `main` creates one worker per index and joins
  them all before reading the global best, and the workers only interact
  through the final fold into the global best, whose value (a minimum) is
  order independent.
-/

namespace TSP

/-- INT_MAX on the 32-bit int used by the source (limits.h). -/
def INT_MAX : Int := 2147483647

/-- Pointwise update of a function store (a vector written at index i). -/
def upd {α : Type} (f : Nat → α) (i : Nat) (v : α) : Nat → α :=
  fun j => if j = i then v else f j

/-- Update of a two-dimensional store at row r, column c
(matrix[r][c] = v). -/
def upd2 (m : Nat → Nat → Int) (r c : Nat) (v : Int) : Nat → Nat → Int :=
  upd m r (upd (m r) c v)

/-- The list of integers a, a+1, ..., b-1 iterated by a C loop
`for (x = a; x < b; x++)`; empty when b ≤ a. -/
def intRange (a b : Int) : List Int :=
  (List.range (b - a).toNat).map (fun k : Nat => a + (k : Int))

/-- The list of naturals a, a+1, ..., b-1 (a C loop over non-negative
bounds). -/
def natRange (a b : Nat) : List Nat :=
  (List.range (b - a)).map (fun k => a + k)

/-- City - (x,y) coords of a single city (struct City). -/
structure City where
  x : Int
  y : Int
deriving DecidableEq

/-- Squared Euclidean distance, delx*delx + dely*dely. -/
def sqDist (a b : City) : Int :=
  (a.x - b.x) * (a.x - b.x) + (a.y - b.y) * (a.y - b.y)

/-- Integer square root by downward scan: the largest k ≤ f with k*k ≤ m. -/
def sqrtGo (m : Nat) : Nat → Nat
  | 0 => 0
  | k + 1 => if (k + 1) * (k + 1) ≤ m then k + 1 else sqrtGo m k

/-- Integer square root: the largest k with k*k ≤ m. -/
def isqrt (m : Nat) : Nat := sqrtGo m m

/-- Round-half-up of the square root of a natural number:
floor(sqrt m + 1/2), the value `sqrt(m) + 0.5` truncated to int computes in
the source (Cities::initCosts, comment "manually round the calculation by
adding 1/2 and truncating"). -/
def roundSqrt (m : Nat) : Nat := (isqrt (4 * m) + 1) / 2

/-- The matrix entry for one pair of cities: the rounded Euclidean
distance. -/
def edgeCost (a b : City) : Int := (roundSqrt (sqDist a b).toNat : Int)

/-- city_vec[i] (only ever read in bounds by the source). -/
def cityAt (cv : List City) (i : Nat) : City := cv.getD i ⟨0, 0⟩

/-- Cities::initCosts - populate the cost matrix: for r in [0,n), for c in
[r,n), set matrix[r][c] to the rounded distance and mirror it into
matrix[c][r]. The resize(n, 0) start state is the all-zero store. -/
def initCosts (cv : List City) : Nat → Nat → Int :=
  (List.range cv.length).foldl
    (fun m r =>
      (natRange r cv.length).foldl
        (fun m c =>
          upd2 (upd2 m r c (edgeCost (cityAt cv r) (cityAt cv c))) c r
            (edgeCost (cityAt cv r) (cityAt cv c)))
        m)
    (fun _ _ => 0)

/-- Mutable state of Path::calcPath: the visited-set bit vector, the path
built so far, its accumulated cost, and the current city. -/
structure PathState where
  inpath : Nat → Bool
  path : List Nat
  pathcost : Int
  curr : Nat

/-- The inner scan of Path::calcPath: walk ix over [0,n) keeping the
incumbent (closest, closest_cost), initially (-1, INT_MAX), replacing it
when an unvisited ix has cost strictly below the incumbent cost. (The
source reads the updated cost back as getCost(curr_city, closest) with
closest = ix, the same value.) -/
def scanClosest (n : Nat) (cost : Nat → Nat → Int) (inpath : Nat → Bool)
    (curr : Nat) : Int × Int :=
  (List.range n).foldl
    (fun acc ix =>
      if inpath ix = false ∧ cost curr ix < acc.2
      then ((ix : Int), cost curr ix)
      else acc)
    (-1, INT_MAX)

/-- The main loop of Path::calcPath, one iteration per remaining step count
(the loop for i in [1,n) runs n-1 times). The assert(closest != -1) is
modelled as returning none when it fails. -/
def calcLoop (n : Nat) (cost : Nat → Nat → Int) : Nat → PathState → Option PathState
  | 0, st => some st
  | k + 1, st =>
    let sc := scanClosest n cost st.inpath st.curr
    if sc.1 = -1 then none
    else
      calcLoop n cost k
        { inpath := upd st.inpath sc.1.toNat true
          path := st.path ++ [sc.1.toNat]
          pathcost := st.pathcost + cost st.curr sc.1.toNat
          curr := sc.1.toNat }

/-- Path::calcPath - nearest-neighbour tour from start_city over an n-city
matrix; returns the built path and its cost including the final link back
to start_city, or none if the internal assertion fails. -/
def calcPath (n : Nat) (cost : Nat → Nat → Int) (start_city : Nat) :
    Option (List Nat × Int) :=
  match calcLoop n cost (n - 1)
      { inpath := upd (fun _ => false) start_city true
        path := [start_city]
        pathcost := 0
        curr := start_city } with
  | none => none
  | some st => some (st.path, st.pathcost + cost st.curr start_city)

/-- The cost of consecutive edges of a path read off the matrix
(independent recomputation used by the cost claims). -/
def sumEdges (cost : Nat → Nat → Int) : List Nat → Int
  | [] => 0
  | [_] => 0
  | a :: b :: rest => cost a b + sumEdges cost (b :: rest)

/-- Total cost of the tour produced from one start city (0 when the
builder's assertion fails, which the hypotheses of every claim rule out). -/
def calcLen (n : Nat) (cost : Nat → Nat → Int) (sc : Nat) : Int :=
  match calcPath n cost sc with
  | none => 0
  | some (_, len) => len

/-- The per-thread bounds struct (bounds_t). -/
structure Bounds where
  start : Int
  stop : Int
deriving DecidableEq

/-- The static partition width computed by main:
range = (cities.size() - start_city) / num_threads, in C division (toward
zero). -/
def rangeSize (n s w : Int) : Int := (n - s).tdiv w

/-- The bounds main assigns to thread i: start at i*range + start_city and
end range later, except that the last thread's end is set to
cities.size() + 1. -/
def boundsOf (n s w i : Int) : Bounds :=
  { start := i * rangeSize n s w + s
    stop := if i = w - 1 then n + 1 else i * rangeSize n s w + s + rangeSize n s w }

/-- What one finished worker carries: the start cities it evaluated (ghost
instrumentation recording each full calcPath call) and its
local_best_length, INT_MAX when it adopted no tour. -/
structure WorkerResult where
  evaluated : List Int
  best : Int
deriving DecidableEq

/-- Why a worker aborted the process: the explicit start-city
configuration check (fprintf + exit(-1)), or the assert inside
Path::calcPath. -/
inductive FailKind
  | startExceeds
  | assertFail
deriving DecidableEq

/-- The loop of runthread over its start cities. At the head of each
iteration the stop time is honoured: when a stop time is set
(global_stop_time > 0) and the clock has passed it, the loop breaks with
the state accumulated so far. Otherwise the full tour from this start
city is computed and a strictly shorter length replaces the local best.
The clock is an oracle giving the time(NULL) observed at the k-th check. -/
def workerLoop (clock : Nat → Int) (stopTime : Int) (n : Nat)
    (cost : Nat → Nat → Int) :
    List Int → Nat → WorkerResult → Except FailKind WorkerResult
  | [], _, st => .ok st
  | sc :: rest, k, st =>
    if 0 < stopTime ∧ stopTime < clock k then .ok st
    else
      match calcPath n cost sc.toNat with
      | none => .error .assertFail
      | some (_, len) =>
        workerLoop clock stopTime n cost rest (k + 1)
          { evaluated := st.evaluated ++ [sc]
            best := if len < st.best then len else st.best }

/-- The list of start cities a worker given bounds b iterates: the end is
clamped to cities.size() first, then the loop runs start, ..., end-1. -/
def workerIter (n : Nat) (b : Bounds) : List Int :=
  intRange b.start (if b.stop > (n : Int) then (n : Int) else b.stop)

/-- runthread: abort with the configuration message when b->start exceeds
the city count; otherwise clamp b->end to the city count and run the
start-city loop with an empty local best. -/
def runthread (clock : Nat → Int) (stopTime : Int) (n : Nat)
    (cost : Nat → Nat → Int) (b : Bounds) : Except FailKind WorkerResult :=
  if b.start > (n : Int) then .error .startExceeds
  else workerLoop clock stopTime n cost (workerIter n b) 0 ⟨[], INT_MAX⟩

/-- Spawn one worker per index and join them all (pthread_create in index
order, pthread_join over the same indices); a worker that kills the
process makes the whole run fail. -/
def spawnAll (f : Int → Except FailKind WorkerResult) :
    List Int → Except FailKind (List WorkerResult)
  | [] => .ok []
  | i :: rest =>
    match f i with
    | .error e => .error e
    | .ok r =>
      match spawnAll f rest with
      | .error e => .error e
      | .ok rs => .ok (r :: rs)

/-- The mutex-guarded fold of every worker's local best into
global_best_length (initially INT_MAX): adopt a local best strictly
smaller than the incumbent. The resulting minimum does not depend on lock
acquisition order. -/
def globalBest (rs : List WorkerResult) : Int :=
  rs.foldl (fun g r => if r.best < g then r.best else g) INT_MAX

/-- The search phase of main over an n-city matrix: partition [s, n) over
w workers, run them all, and fold their local bests into the global
best. -/
def searchCore (clock : Nat → Int) (stopTime : Int) (n : Nat)
    (cost : Nat → Nat → Int) (s w : Int) : Except FailKind Int :=
  match spawnAll (fun i => runthread clock stopTime n cost (boundsOf n s w i))
      (intRange 0 w) with
  | .error e => .error e
  | .ok rs => .ok (globalBest rs)

/-- Observable end state of one run of the program. -/
inductive Fate
  /-- Abnormal termination with no configuration diagnostic: division by
  zero in the range computation (w = 0), the negative-length vector
  allocation (w < 0), the assert in calcPath, or printPath called through
  the NULL global_best_path. -/
  | crash
  /-- The explicit configuration diagnostic: "Start city exceeds city
  count" on stderr followed by exit(-1). -/
  | configError
  /-- Normal exit printing the winning tour cost. -/
  | output (best : Int)
deriving DecidableEq

/-- The whole program after the cities are read: build the cost matrix,
partition, run the workers, join, and print the best tour. A zero worker
count divides by zero at the range computation and a negative one makes
the bounds vector constructor throw, both killing the process before any
thread starts; if every worker ends with no tour, global_best_path is
still NULL and printPath dereferences it (undefined behaviour), modelled
as a crash. -/
def runProgramCore (clock : Nat → Int) (stopTime : Int) (cv : List City)
    (s w : Int) : Fate :=
  if w = 0 then .crash
  else if w < 0 then .crash
  else
    match searchCore clock stopTime cv.length (initCosts cv) s w with
    | .error .startExceeds => .configError
    | .error .assertFail => .crash
    | .ok g => if g = INT_MAX then .crash else .output g

/-- A run under the default configuration: no stop time
(global_stop_time = 0), so the clock is never consulted. -/
def runProgram (cv : List City) (s w : Int) : Fate :=
  runProgramCore (fun _ => 0) 0 cv s w

/-- The local-best update step (the `if length < best` pattern shared by
the worker loop and the global fold). -/
def updBest (g x : Int) : Int := if x < g then x else g

/-- The best tour length over a list of start cities, folded exactly as a
single worker folds it (INT_MAX when the list yields nothing smaller). -/
def bestFrom (n : Nat) (cost : Nat → Nat → Int) (l : List Int) : Int :=
  l.foldl (fun g sc => updBest g (calcLen n cost sc.toNat)) INT_MAX

/-- The concatenation, in thread order, of every worker's iterated start
cities. -/
def iterJoin (n : Nat) (s w : Int) : List Int :=
  (intRange 0 w).foldr (fun i acc => workerIter n (boundsOf n s w i) ++ acc) []

/-- The four cities of concrete scenario A: (0,0), (0,3), (4,3), (4,0). -/
def demoCities : List City := [⟨0, 0⟩, ⟨0, 3⟩, ⟨4, 3⟩, ⟨4, 0⟩]

/-- A trivially bounded matrix used to instantiate witnesses. -/
def constCost : Nat → Nat → Int := fun _ _ => 1

/-! Basic facts about the loop ranges. -/

theorem intRange_eq_nil {a b : Int} (h : b ≤ a) : intRange a b = [] := by
  unfold intRange
  have : (b - a).toNat = 0 := by omega
  simp [this]

theorem intRange_eq_cons {a b : Int} (h : a < b) :
    intRange a b = a :: intRange (a + 1) b := by
  unfold intRange
  have h1 : (b - a).toNat = (b - (a + 1)).toNat + 1 := by omega
  rw [h1, List.range_succ_eq_map]
  simp only [List.map_cons, List.map_map]
  congr 1
  · simp
  · apply List.map_congr_left
    intro k _
    simp only [Function.comp]
    push_cast
    ring

theorem intRange_concat {a b : Int} (h : a ≤ b) :
    intRange a (b + 1) = intRange a b ++ [b] := by
  unfold intRange
  have h1 : (b + 1 - a).toNat = (b - a).toNat + 1 := by omega
  rw [h1, List.range_succ, List.map_append]
  simp only [List.map_cons, List.map_nil]
  congr 2
  omega

theorem mem_intRange {a b x : Int} : x ∈ intRange a b ↔ a ≤ x ∧ x < b := by
  unfold intRange
  simp only [List.mem_map, List.mem_range]
  constructor
  · rintro ⟨k, hk, rfl⟩
    omega
  · rintro ⟨h1, h2⟩
    exact ⟨(x - a).toNat, by omega, by omega⟩

theorem intRange_append {a b c : Int} (hab : a ≤ b) (hbc : b ≤ c) :
    intRange a b ++ intRange b c = intRange a c := by
  have h : ∀ k : Nat, ∀ a : Int, a ≤ b → (b - a).toNat = k →
      intRange a b ++ intRange b c = intRange a c := by
    intro k
    induction k with
    | zero =>
      intro a h1 h2
      have : a = b := by omega
      subst this
      rw [intRange_eq_nil le_rfl, List.nil_append]
    | succ m ih =>
      intro a h1 h2
      have hlt : a < b := by omega
      rw [intRange_eq_cons hlt, intRange_eq_cons (by omega : a < c),
        List.cons_append]
      congr 1
      exact ih (a + 1) (by omega) (by omega)
  exact h (b - a).toNat a hab rfl

theorem intRange_nodup (a b : Int) : (intRange a b).Nodup := by
  unfold intRange
  refine List.Nodup.map ?_ (List.nodup_range _)
  intro x y h
  simp only at h
  omega

theorem count_intRange (a b x : Int) :
    (intRange a b).count x = if a ≤ x ∧ x < b then 1 else 0 := by
  by_cases h : a ≤ x ∧ x < b
  · rw [if_pos h]
    exact List.count_eq_one_of_mem (intRange_nodup a b) (mem_intRange.2 h)
  · rw [if_neg h]
    refine List.count_eq_zero.2 ?_
    intro hm
    exact h (mem_intRange.1 hm)

theorem natRange_eq_nil {a b : Nat} (h : b ≤ a) : natRange a b = [] := by
  unfold natRange
  have : b - a = 0 := by omega
  simp [this]

theorem natRange_eq_cons {a b : Nat} (h : a < b) :
    natRange a b = a :: natRange (a + 1) b := by
  unfold natRange
  have h1 : b - a = (b - (a + 1)) + 1 := by omega
  rw [h1, List.range_succ_eq_map]
  simp only [List.map_cons, List.map_map]
  congr 1
  apply List.map_congr_left
  intro k hk
  simp only [Function.comp]
  omega

/-! The integer square root and the round-half-up characterisation. -/

theorem sqrtGo_spec (m : Nat) : ∀ f : Nat,
    sqrtGo m f * sqrtGo m f ≤ m ∧ sqrtGo m f ≤ f ∧
      (∀ k, k ≤ f → k * k ≤ m → k ≤ sqrtGo m f) := by
  intro f
  induction f with
  | zero =>
    refine ⟨by simp [sqrtGo], le_rfl, ?_⟩
    intro k hk _
    simpa [sqrtGo] using hk
  | succ g ih =>
    unfold sqrtGo
    by_cases h : (g + 1) * (g + 1) ≤ m
    · rw [if_pos h]
      exact ⟨h, le_rfl, fun k hk _ => hk⟩
    · rw [if_neg h]
      refine ⟨ih.1, le_trans ih.2.1 (by omega), ?_⟩
      intro k hk hkm
      rcases Nat.lt_or_ge k (g + 1) with h1 | h1
      · exact ih.2.2 k (by omega) hkm
      · exfalso
        have : k = g + 1 := by omega
        subst this
        exact h hkm

theorem isqrt_le (m : Nat) : isqrt m * isqrt m ≤ m := (sqrtGo_spec m m).1

theorem lt_isqrt_succ (m : Nat) : m < (isqrt m + 1) * (isqrt m + 1) := by
  by_contra h
  push_neg at h
  have h1 : isqrt m + 1 ≤ m := by
    calc isqrt m + 1 ≤ (isqrt m + 1) * (isqrt m + 1) :=
          Nat.le_mul_of_pos_left _ (by omega)
    _ ≤ m := h
  have h2 := (sqrtGo_spec m m).2.2 (isqrt m + 1) h1 h
  have h3 : isqrt m = sqrtGo m m := rfl
  omega

/-- The round-half-up characterisation: roundSqrt m is the natural k with
k - 1/2 ≤ sqrt m < k + 1/2, i.e. the Euclidean distance rounded to the
nearest integer with ties rounding up. -/
theorem roundSqrt_spec (m : Nat) :
    4 * m < (2 * roundSqrt m + 1) * (2 * roundSqrt m + 1) ∧
      (roundSqrt m = 0 ∨
        (2 * roundSqrt m - 1) * (2 * roundSqrt m - 1) ≤ 4 * m) := by
  have h1 := isqrt_le (4 * m)
  have h2 := lt_isqrt_succ (4 * m)
  set j := isqrt (4 * m) with hj
  have hk : roundSqrt m = (j + 1) / 2 := rfl
  constructor
  · have : j + 1 ≤ 2 * ((j + 1) / 2) + 1 := by omega
    calc 4 * m < (j + 1) * (j + 1) := h2
    _ ≤ (2 * ((j + 1) / 2) + 1) * (2 * ((j + 1) / 2) + 1) :=
        Nat.mul_le_mul this this
    _ = (2 * roundSqrt m + 1) * (2 * roundSqrt m + 1) := by rw [hk]
  · by_cases h0 : roundSqrt m = 0
    · exact Or.inl h0
    · refine Or.inr ?_
      have hge : 1 ≤ (j + 1) / 2 := by
        rw [← hk]
        omega
      have : 2 * ((j + 1) / 2) - 1 ≤ j := by omega
      calc (2 * roundSqrt m - 1) * (2 * roundSqrt m - 1)
          = (2 * ((j + 1) / 2) - 1) * (2 * ((j + 1) / 2) - 1) := by rw [hk]
      _ ≤ j * j := Nat.mul_le_mul this this
      _ ≤ 4 * m := h1

theorem roundSqrt_zero : roundSqrt 0 = 0 := by decide

/-! Characterisation of the cost matrix built by Cities::initCosts. -/

theorem edgeCost_comm (a b : City) : edgeCost a b = edgeCost b a := by
  unfold edgeCost sqDist
  ring_nf

theorem edgeCost_self (a : City) : edgeCost a a = 0 := by
  unfold edgeCost sqDist
  simp [roundSqrt_zero]

theorem edgeCost_nonneg (a b : City) : 0 ≤ edgeCost a b := by
  unfold edgeCost
  exact Int.natCast_nonneg _

theorem upd2_get (m : Nat → Nat → Int) (r c : Nat) (v : Int) (i j : Nat) :
    upd2 m r c v i j = if i = r ∧ j = c then v else m i j := by
  unfold upd2 upd
  by_cases h1 : i = r
  · subst h1
    by_cases h2 : j = c
    · subst h2
      simp
    · simp [h2]
  · simp [h1]

theorem innerFold_get (cv : List City) (r : Nat) (len : Nat) :
    ∀ (c0 : Nat) (m : Nat → Nat → Int) (i j : Nat), r ≤ c0 →
      ((natRange c0 (c0 + len)).foldl
          (fun m c =>
            upd2 (upd2 m r c (edgeCost (cityAt cv r) (cityAt cv c))) c r
              (edgeCost (cityAt cv r) (cityAt cv c)))
          m) i j
        = if i = r ∧ c0 ≤ j ∧ j < c0 + len then edgeCost (cityAt cv r) (cityAt cv j)
          else if j = r ∧ c0 ≤ i ∧ i < c0 + len then edgeCost (cityAt cv r) (cityAt cv i)
          else m i j := by
  induction len with
  | zero =>
    intro c0 m i j hrc
    rw [natRange_eq_nil (by omega)]
    simp only [List.foldl_nil]
    rw [if_neg (by omega), if_neg (by omega)]
  | succ len ih =>
    intro c0 m i j hrc
    rw [natRange_eq_cons (by omega : c0 < c0 + (len + 1)), List.foldl_cons]
    have harith : c0 + 1 + len = c0 + (len + 1) := by omega
    have := ih (c0 + 1)
      (upd2 (upd2 m r c0 (edgeCost (cityAt cv r) (cityAt cv c0))) c0 r
        (edgeCost (cityAt cv r) (cityAt cv c0))) i j (by omega)
    rw [harith] at this
    rw [this]
    by_cases hA : i = r ∧ c0 ≤ j ∧ j < c0 + (len + 1)
    · rw [if_pos hA]
      obtain ⟨hi, hj1, hj2⟩ := hA
      by_cases hj : c0 + 1 ≤ j
      · rw [if_pos ⟨hi, hj, by omega⟩]
      · have hjc : j = c0 := by omega
        subst hjc
        rw [if_neg (by omega)]
        by_cases hreq : r = j
        · rw [if_neg (by omega)]
          rw [upd2_get, upd2_get]
          subst hi
          simp [hreq]
        · rw [if_neg (by intro hcon; omega)]
          rw [upd2_get, upd2_get]
          subst hi
          simp [hreq, Ne.symm hreq]
    · rw [if_neg hA]
      by_cases hB : j = r ∧ c0 ≤ i ∧ i < c0 + (len + 1)
      · rw [if_pos hB]
        obtain ⟨hj, hi1, hi2⟩ := hB
        rw [if_neg (by intro hcon; exact hA ⟨hcon.1, by omega, by omega⟩)]
        by_cases hi : c0 + 1 ≤ i
        · rw [if_pos ⟨hj, hi, by omega⟩]
        · have hic : i = c0 := by omega
          subst hic
          rw [if_neg (by omega)]
          rw [upd2_get, upd2_get]
          subst hj
          simp
      · rw [if_neg hB]
        rw [if_neg (by intro hcon; exact hA ⟨hcon.1, by omega, by omega⟩)]
        rw [if_neg (by intro hcon; exact hB ⟨hcon.1, by omega, by omega⟩)]
        rw [upd2_get, upd2_get]
        rw [if_neg (by intro hcon; exact hB ⟨hcon.2, by omega, by omega⟩)]
        rw [if_neg (by intro hcon; exact hA ⟨hcon.1, by omega, by omega⟩)]

theorem outerFold_get (cv : List City) :
    ∀ (k : Nat), k ≤ cv.length → ∀ (i j : Nat),
      ((List.range k).foldl
          (fun m r =>
            (natRange r cv.length).foldl
              (fun m c =>
                upd2 (upd2 m r c (edgeCost (cityAt cv r) (cityAt cv c))) c r
                  (edgeCost (cityAt cv r) (cityAt cv c)))
              m)
          (fun _ _ => 0)) i j
        = if i < cv.length ∧ j < cv.length ∧ (i < k ∨ j < k)
          then edgeCost (cityAt cv i) (cityAt cv j) else 0 := by
  intro k
  induction k with
  | zero =>
    intro _ i j
    simp only [List.range_zero, List.foldl_nil]
    rw [if_neg (by omega)]
  | succ k ih =>
    intro hk i j
    rw [List.range_succ, List.foldl_append]
    simp only [List.foldl_cons, List.foldl_nil]
    have hlen : k + (cv.length - k) = cv.length := by omega
    have hinner := innerFold_get cv k (cv.length - k) k
      ((List.range k).foldl
        (fun m r =>
          (natRange r cv.length).foldl
            (fun m c =>
              upd2 (upd2 m r c (edgeCost (cityAt cv r) (cityAt cv c))) c r
                (edgeCost (cityAt cv r) (cityAt cv c)))
            m)
        (fun _ _ => 0)) i j le_rfl
    rw [hlen] at hinner
    rw [hinner]
    by_cases hA : i = k ∧ k ≤ j ∧ j < cv.length
    · rw [if_pos hA]
      obtain ⟨hi, hj1, hj2⟩ := hA
      subst hi
      rw [if_pos ⟨by omega, by omega, by omega⟩]
    · rw [if_neg hA]
      by_cases hB : j = k ∧ k ≤ i ∧ i < cv.length
      · rw [if_pos hB]
        obtain ⟨hj, hi1, hi2⟩ := hB
        subst hj
        rw [if_pos ⟨by omega, by omega, by omega⟩]
        exact edgeCost_comm _ _
      · rw [if_neg hB, ih (by omega) i j]
        by_cases hc : i < cv.length ∧ j < cv.length ∧ (i < k ∨ j < k)
        · rw [if_pos hc, if_pos ⟨hc.1, hc.2.1, by omega⟩]
        · rw [if_neg hc]
          rw [if_neg ?_]
          intro ⟨h1, h2, h3⟩
          rcases h3 with h3 | h3
          · rcases Nat.lt_or_ge i k with h4 | h4
            · exact hc ⟨h1, h2, Or.inl h4⟩
            · have heq : i = k := by omega
              rcases Nat.lt_or_ge j k with h5 | h5
              · exact hc ⟨h1, h2, Or.inr h5⟩
              · exact hA ⟨heq, h5, h2⟩
          · rcases Nat.lt_or_ge j k with h4 | h4
            · exact hc ⟨h1, h2, Or.inr h4⟩
            · have heq : j = k := by omega
              rcases Nat.lt_or_ge i k with h5 | h5
              · exact hc ⟨h1, h2, Or.inl h5⟩
              · exact hB ⟨heq, h5, h1⟩

/-- The entry of the cost matrix at any in-bounds pair is the rounded
Euclidean distance between the two cities. -/
theorem initCosts_get (cv : List City) (i j : Nat) (hi : i < cv.length)
    (hj : j < cv.length) :
    initCosts cv i j = edgeCost (cityAt cv i) (cityAt cv j) := by
  unfold initCosts
  rw [outerFold_get cv cv.length le_rfl i j, if_pos ⟨hi, hj, Or.inl hi⟩]

/-! Specification of the nearest-neighbour scan inside Path::calcPath. -/

theorem scanClosest_spec (n : Nat) (cost : Nat → Nat → Int)
    (inpath : Nat → Bool) (curr : Nat) :
    (scanClosest n cost inpath curr = (-1, INT_MAX) ∧
      ∀ ix, ix < n → inpath ix = false → INT_MAX ≤ cost curr ix) ∨
    (∃ c : Nat, c < n ∧
      scanClosest n cost inpath curr = ((c : Int), cost curr c) ∧
      inpath c = false ∧ cost curr c < INT_MAX ∧
      (∀ ix, ix < n → inpath ix = false → cost curr c ≤ cost curr ix) ∧
      (∀ ix, ix < c → inpath ix = false → cost curr c < cost curr ix)) := by
  induction n with
  | zero =>
    refine Or.inl ⟨rfl, ?_⟩
    intro ix hix
    omega
  | succ n ih =>
    have hstep : scanClosest (n + 1) cost inpath curr =
        (if inpath n = false ∧ cost curr n < (scanClosest n cost inpath curr).2
         then ((n : Int), cost curr n)
         else scanClosest n cost inpath curr) := by
      unfold scanClosest
      rw [List.range_succ, List.foldl_append]
      rfl
    rcases ih with ⟨hacc, hall⟩ | ⟨c, hcn, hacc, helig, hlt, hmin, hfirst⟩
    · rw [hacc] at hstep
      by_cases hcond : inpath n = false ∧ cost curr n < INT_MAX
      · rw [if_pos (by simpa using hcond)] at hstep
        refine Or.inr ⟨n, by omega, hstep, hcond.1, hcond.2, ?_, ?_⟩
        · intro ix hix helig2
          rcases Nat.lt_or_ge ix n with h1 | h1
          · have := hall ix h1 helig2
            omega
          · have : ix = n := by omega
            subst this
            exact le_rfl
        · intro ix hix helig2
          have := hall ix hix helig2
          omega
      · rw [if_neg (by simpa using hcond)] at hstep
        refine Or.inl ⟨hstep, ?_⟩
        intro ix hix helig2
        rcases Nat.lt_or_ge ix n with h1 | h1
        · exact hall ix h1 helig2
        · have : ix = n := by omega
          subst this
          rcases not_and_or.1 hcond with h2 | h2
          · exact absurd helig2 h2
          · omega
    · rw [hacc] at hstep
      by_cases hcond : inpath n = false ∧ cost curr n < cost curr c
      · rw [if_pos (by simpa using hcond)] at hstep
        refine Or.inr ⟨n, by omega, hstep, hcond.1, by omega, ?_, ?_⟩
        · intro ix hix helig2
          rcases Nat.lt_or_ge ix n with h1 | h1
          · have := hmin ix h1 helig2
            omega
          · have : ix = n := by omega
            subst this
            exact le_rfl
        · intro ix hix helig2
          have := hmin ix hix helig2
          omega
      · rw [if_neg (by simpa using hcond)] at hstep
        refine Or.inr ⟨c, by omega, hstep, helig, hlt, ?_, hfirst⟩
        intro ix hix helig2
        rcases Nat.lt_or_ge ix n with h1 | h1
        · exact hmin ix h1 helig2
        · have : ix = n := by omega
          subst this
          rcases not_and_or.1 hcond with h2 | h2
          · exact absurd helig2 h2
          · omega

/-! The loop invariant of Path::calcPath. -/

/-- Invariant carried by the calcPath loop: the path is a duplicate-free
list of in-range cities, the visited bit vector agrees with it, the
accumulated cost is the sum of its consecutive edges, and curr_city is its
last element. -/
def pathInv (n : Nat) (cost : Nat → Nat → Int) (st : PathState) : Prop :=
  st.path.Nodup ∧ (∀ x ∈ st.path, x < n) ∧
    (∀ ix, st.inpath ix = true ↔ ix ∈ st.path) ∧
    st.pathcost = sumEdges cost st.path ∧
    st.path.getLast? = some st.curr

theorem sumEdges_concat (cost : Nat → Nat → Int) :
    ∀ (l : List Nat) (last c : Nat), l.getLast? = some last →
      sumEdges cost (l ++ [c]) = sumEdges cost l + cost last c := by
  intro l
  induction l with
  | nil =>
    intro last c h
    simp at h
  | cons a t ih =>
    intro last c h
    cases t with
    | nil =>
      simp only [List.getLast?_singleton, Option.some.injEq] at h
      subst h
      simp [sumEdges]
    | cons b t2 =>
      rw [List.getLast?_cons_cons] at h
      have := ih last c h
      simp only [List.cons_append] at *
      rw [show sumEdges cost (a :: b :: (t2 ++ [c]))
            = cost a b + sumEdges cost (b :: (t2 ++ [c])) from rfl, this]
      rw [show sumEdges cost (a :: b :: t2)
            = cost a b + sumEdges cost (b :: t2) from rfl]
      ring

theorem mem_of_getLast_opt :
    ∀ {l : List Nat} {a : Nat}, l.getLast? = some a → a ∈ l := by
  intro l
  induction l with
  | nil =>
    intro a h
    simp at h
  | cons x t ih =>
    intro a h
    cases t with
    | nil =>
      simp only [List.getLast?_singleton, Option.some.injEq] at h
      subst h
      simp
    | cons b t2 =>
      rw [List.getLast?_cons_cons] at h
      exact List.mem_cons_of_mem x (ih h)

theorem exists_unvisited (n : Nat) (l : List Nat) (hnd : l.Nodup)
    (hb : ∀ x ∈ l, x < n) (hl : l.length < n) : ∃ m, m < n ∧ m ∉ l := by
  by_contra h
  push_neg at h
  have hsub : Finset.range n ⊆ l.toFinset := by
    intro x hx
    rw [List.mem_toFinset]
    exact h x (Finset.mem_range.1 hx)
  have hcard := Finset.card_le_card hsub
  rw [Finset.card_range, List.toFinset_card_of_nodup hnd] at hcard
  omega

theorem calcLoop_succ (n : Nat) (cost : Nat → Nat → Int) (k : Nat)
    (st : PathState) :
    calcLoop n cost (k + 1) st =
      if (scanClosest n cost st.inpath st.curr).1 = -1 then none
      else calcLoop n cost k
        { inpath := upd st.inpath (scanClosest n cost st.inpath st.curr).1.toNat true
          path := st.path ++ [(scanClosest n cost st.inpath st.curr).1.toNat]
          pathcost := st.pathcost
            + cost st.curr (scanClosest n cost st.inpath st.curr).1.toNat
          curr := (scanClosest n cost st.inpath st.curr).1.toNat } := rfl

theorem calcLoop_spec (n : Nat) (cost : Nat → Nat → Int)
    (hc : ∀ i j, i < n → j < n → cost i j < INT_MAX) :
    ∀ (k : Nat) (st : PathState), pathInv n cost st →
      st.path.length + k ≤ n →
      ∃ st', calcLoop n cost k st = some st' ∧ pathInv n cost st' ∧
        st'.path.length = st.path.length + k ∧
        st'.path.head? = st.path.head? := by
  intro k
  induction k with
  | zero =>
    intro st hinv _
    exact ⟨st, rfl, hinv, by omega, rfl⟩
  | succ k ih =>
    intro st hinv hlen
    obtain ⟨hnd, hb, hbit, hcost, hlast⟩ := hinv
    have hcurr : st.curr ∈ st.path := mem_of_getLast_opt hlast
    have hcurrn : st.curr < n := hb _ hcurr
    have hne : st.path ≠ [] := by
      intro hcon
      rw [hcon] at hlast
      simp at hlast
    obtain ⟨m, hmn, hmnotin⟩ := exists_unvisited n st.path hnd hb (by omega)
    have hmelig : st.inpath m = false := by
      rcases Bool.eq_false_or_eq_true (st.inpath m) with h | h
      · exact absurd ((hbit m).1 h) hmnotin
      · exact h
    rcases scanClosest_spec n cost st.inpath st.curr with ⟨_, hall⟩ | hgood
    · exfalso
      have := hall m hmn hmelig
      have := hc st.curr m hcurrn hmn
      omega
    · obtain ⟨c, hcn, hacc, helig, _, _, _⟩ := hgood
      have hcnotin : c ∉ st.path := by
        intro hcon
        rw [(hbit c).2 hcon] at helig
        exact Bool.noConfusion helig
      have hne2 : ¬(((c : Int), cost st.curr c).1 = -1) := by
        show ¬((c : Int) = -1)
        omega
      have hstep : calcLoop n cost (k + 1) st = calcLoop n cost k
          { inpath := upd st.inpath c true
            path := st.path ++ [c]
            pathcost := st.pathcost + cost st.curr c
            curr := c } := by
        rw [calcLoop_succ, hacc, if_neg hne2]
        rfl
      rw [hstep]
      have hinv2 : pathInv n cost
          { inpath := upd st.inpath c true
            path := st.path ++ [c]
            pathcost := st.pathcost + cost st.curr c
            curr := c } := by
        refine ⟨?_, ?_, ?_, ?_, ?_⟩
        · show (st.path ++ [c]).Nodup
          rw [List.nodup_append]
          refine ⟨hnd, List.nodup_singleton c, ?_⟩
          intro a ha hb2
          simp only [List.mem_singleton] at hb2
          subst hb2
          exact hcnotin ha
        · intro x hx
          have hx2 : x ∈ st.path ++ [c] := hx
          rcases List.mem_append.1 hx2 with h | h
          · exact hb x h
          · simp at h
            omega
        · intro ix
          show (if ix = c then true else st.inpath ix) = true ↔
            ix ∈ st.path ++ [c]
          by_cases hix : ix = c
          · subst hix
            simp
          · rw [if_neg hix, List.mem_append]
            simp only [List.mem_singleton, hix, or_false]
            exact hbit ix
        · show st.pathcost + cost st.curr c = sumEdges cost (st.path ++ [c])
          rw [sumEdges_concat cost st.path st.curr c hlast, hcost]
        · show (st.path ++ [c]).getLast? = some c
          exact List.getLast?_concat _
      obtain ⟨st', hrun, hinv', hlen', hhead'⟩ := ih _ hinv2 (by
        show (st.path ++ [c]).length + k ≤ n
        simp only [List.length_append, List.length_singleton]
        omega)
      refine ⟨st', hrun, hinv', ?_, ?_⟩
      · rw [hlen']
        show (st.path ++ [c]).length + k = st.path.length + (k + 1)
        simp only [List.length_append, List.length_singleton]
        omega
      · rw [hhead']
        show (st.path ++ [c]).head? = st.path.head?
        cases hp : st.path with
        | nil => exact absurd hp hne
        | cons a t => simp

/-- Full specification of Path::calcPath: for a start city in range and a
matrix whose entries are all below INT_MAX, the builder returns a
duplicate-free path of length n through in-range cities, starting at the
start city, whose cost is the consecutive-edge sum plus the closing
edge. -/
theorem calcPath_spec (n : Nat) (cost : Nat → Nat → Int) (s : Nat)
    (hs : s < n) (hc : ∀ i j, i < n → j < n → cost i j < INT_MAX) :
    ∃ t last, calcPath n cost s = some (t, sumEdges cost t + cost last s) ∧
      t.length = n ∧ t.Nodup ∧ (∀ x ∈ t, x < n) ∧
      t.head? = some s ∧ t.getLast? = some last := by
  have hinv0 : pathInv n cost
      { inpath := upd (fun _ => false) s true
        path := [s]
        pathcost := 0
        curr := s } := by
    refine ⟨List.nodup_singleton s, ?_, ?_, rfl, rfl⟩
    · intro x hx
      simp at hx
      omega
    · intro ix
      unfold upd
      by_cases hix : ix = s
      · subst hix
        simp
      · simp [hix]
  obtain ⟨st', hrun, ⟨hnd, hb, _, hcost, hlast⟩, hlen, hhead⟩ :=
    calcLoop_spec n cost hc (n - 1)
      { inpath := upd (fun _ => false) s true
        path := [s]
        pathcost := 0
        curr := s } hinv0 (by simp only [List.length_singleton]; omega)
  refine ⟨st'.path, st'.curr, ?_, ?_, hnd, hb, ?_, hlast⟩
  · unfold calcPath
    rw [hrun]
    show some (st'.path, st'.pathcost + cost st'.curr s)
      = some (st'.path, sumEdges cost st'.path + cost st'.curr s)
    rw [hcost]
  · rw [hlen]
    simp only [List.length_singleton]
    omega
  · rw [hhead]
    rfl

/-- Cardinality corollary: a duplicate-free list of n naturals all below n
contains every natural below n. -/
theorem mem_of_full (n : Nat) (t : List Nat) (hnd : t.Nodup)
    (hb : ∀ x ∈ t, x < n) (hl : t.length = n) : ∀ x, x < n → x ∈ t := by
  intro x hx
  have hsub : t.toFinset ⊆ Finset.range n := by
    intro y hy
    rw [Finset.mem_range]
    exact hb y (List.mem_toFinset.1 hy)
  have heq : t.toFinset = Finset.range n := by
    apply Finset.eq_of_subset_of_card_le hsub
    rw [Finset.card_range, List.toFinset_card_of_nodup hnd, hl]
  have : x ∈ t.toFinset := by
    rw [heq, Finset.mem_range]
    exact hx
  exact List.mem_toFinset.1 this

/-! The worker loop: full runs, immediate stops, and interruption only at
start-city boundaries. -/

theorem calcLen_eq (n : Nat) (cost : Nat → Nat → Int) (s : Nat)
    (t : List Nat) (c : Int) (h : calcPath n cost s = some (t, c)) :
    calcLen n cost s = c := by
  unfold calcLen
  rw [h]

theorem workerLoop_cons (clock : Nat → Int) (stopTime : Int) (n : Nat)
    (cost : Nat → Nat → Int) (sc : Int) (rest : List Int) (k : Nat)
    (st : WorkerResult) :
    workerLoop clock stopTime n cost (sc :: rest) k st =
      if 0 < stopTime ∧ stopTime < clock k then .ok st
      else
        match calcPath n cost sc.toNat with
        | none => .error .assertFail
        | some (_, len) =>
          workerLoop clock stopTime n cost rest (k + 1)
            { evaluated := st.evaluated ++ [sc]
              best := if len < st.best then len else st.best } := rfl

theorem workerLoop_noStop (clock : Nat → Int) (n : Nat)
    (cost : Nat → Nat → Int)
    (hc : ∀ i j, i < n → j < n → cost i j < INT_MAX) :
    ∀ (l : List Int) (k : Nat) (st : WorkerResult),
      (∀ sc ∈ l, 0 ≤ sc ∧ sc.toNat < n) →
      workerLoop clock 0 n cost l k st =
        .ok ⟨st.evaluated ++ l,
          l.foldl (fun g sc => updBest g (calcLen n cost sc.toNat)) st.best⟩ := by
  intro l
  induction l with
  | nil =>
    intro k st _
    simp [workerLoop]
  | cons sc rest ih =>
    intro k st hmem
    obtain ⟨hsc0, hscn⟩ := hmem sc (List.mem_cons_self _ _)
    obtain ⟨t, last, hcp, -, -, -, -, -⟩ := calcPath_spec n cost sc.toNat hscn hc
    rcases h2 : calcPath n cost sc.toNat with - | ⟨t2, len⟩
    · rw [h2] at hcp
      cases hcp
    · have hlen : calcLen n cost sc.toNat = len := calcLen_eq n cost _ t2 len h2
      rw [workerLoop_cons, if_neg (by omega), h2]
      show workerLoop clock 0 n cost rest (k + 1)
          { evaluated := st.evaluated ++ [sc]
            best := if len < st.best then len else st.best } = _
      rw [ih (k + 1) _ (fun x hx => hmem x (List.mem_cons_of_mem _ hx))]
      have e2 : (if len < st.best then len else st.best)
          = updBest st.best (calcLen n cost sc.toNat) := by
        rw [hlen]
        rfl
      simp only [List.foldl_cons, e2]
      simp

theorem workerLoop_breakNow (clock : Nat → Int) (stopTime : Int) (n : Nat)
    (cost : Nat → Nat → Int) (l : List Int) (st : WorkerResult)
    (hstop : 0 < stopTime) (hclock : stopTime < clock 0) :
    workerLoop clock stopTime n cost l 0 st = .ok st := by
  cases l with
  | nil => rfl
  | cons sc rest =>
    rw [workerLoop_cons, if_pos ⟨hstop, hclock⟩]

theorem workerLoop_take (clock : Nat → Int) (stopTime : Int) (n : Nat)
    (cost : Nat → Nat → Int)
    (hc : ∀ i j, i < n → j < n → cost i j < INT_MAX) :
    ∀ (l : List Int) (k : Nat) (st : WorkerResult),
      (∀ sc ∈ l, 0 ≤ sc ∧ sc.toNat < n) →
      ∃ j, workerLoop clock stopTime n cost l k st =
        .ok ⟨st.evaluated ++ l.take j,
          (l.take j).foldl (fun g sc => updBest g (calcLen n cost sc.toNat))
            st.best⟩ := by
  intro l
  induction l with
  | nil =>
    intro k st _
    exact ⟨0, by simp [workerLoop]⟩
  | cons sc rest ih =>
    intro k st hmem
    by_cases hbrk : 0 < stopTime ∧ stopTime < clock k
    · refine ⟨0, ?_⟩
      rw [workerLoop_cons, if_pos hbrk]
      simp
    · obtain ⟨hsc0, hscn⟩ := hmem sc (List.mem_cons_self _ _)
      obtain ⟨t, last, hcp, -, -, -, -, -⟩ := calcPath_spec n cost sc.toNat hscn hc
      rcases h2 : calcPath n cost sc.toNat with - | ⟨t2, len⟩
      · rw [h2] at hcp
        cases hcp
      · have hlen : calcLen n cost sc.toNat = len := calcLen_eq n cost _ t2 len h2
        obtain ⟨j, hj⟩ := ih (k + 1)
          { evaluated := st.evaluated ++ [sc]
            best := if len < st.best then len else st.best }
          (fun x hx => hmem x (List.mem_cons_of_mem _ hx))
        refine ⟨j + 1, ?_⟩
        rw [workerLoop_cons, if_neg hbrk, h2]
        show workerLoop clock stopTime n cost rest (k + 1)
            { evaluated := st.evaluated ++ [sc]
              best := if len < st.best then len else st.best } = _
        rw [hj]
        have e2 : (if len < st.best then len else st.best)
            = updBest st.best (calcLen n cost sc.toNat) := by
          rw [hlen]
          rfl
        simp only [List.take_succ_cons, List.foldl_cons, e2]
        simp

/-! Partition arithmetic of main's static work split. -/

theorem rangeSize_nonneg (n s w : Int) (hs : s ≤ n) (hw : 1 ≤ w) :
    0 ≤ rangeSize n s w := Int.tdiv_nonneg (by omega) (by omega)

theorem mul_rangeSize_le (n s w : Int) (hs : s ≤ n) (hw : 1 ≤ w) :
    w * rangeSize n s w ≤ n - s := by
  unfold rangeSize
  rw [Int.tdiv_eq_ediv (by omega) (by omega)]
  have h1 := Int.ediv_add_emod (n - s) w
  have h2 := Int.emod_nonneg (n - s) (by omega : w ≠ 0)
  omega

theorem start_le_of_le (n s w i : Int) (hs : s ≤ n) (hw : 1 ≤ w)
    (hi0 : 0 ≤ i) (hiw : i ≤ w - 1) :
    i * rangeSize n s w + s ≤ n := by
  have hr := rangeSize_nonneg n s w hs hw
  have h1 : i * rangeSize n s w ≤ (w - 1) * rangeSize n s w :=
    mul_le_mul_of_nonneg_right hiw hr
  have h2 := mul_rangeSize_le n s w hs hw
  have h3 : (w - 1) * rangeSize n s w
      = w * rangeSize n s w - rangeSize n s w := by ring
  omega

theorem boundsOf_start (n s w i : Int) :
    (boundsOf n s w i).start = i * rangeSize n s w + s := rfl

theorem workerIter_eq_mid (n : Nat) (s w i : Int) (hsn : s ≤ (n : Int))
    (hw : 1 ≤ w) (hi0 : 0 ≤ i) (hiw : i < w - 1) :
    workerIter n (boundsOf n s w i) =
      intRange (i * rangeSize (n : Int) s w + s)
        ((i + 1) * rangeSize (n : Int) s w + s) := by
  have hstop : (boundsOf n s w i).stop
      = i * rangeSize (n : Int) s w + s + rangeSize (n : Int) s w := by
    unfold boundsOf
    rw [if_neg (by omega : ¬i = w - 1)]
  have hle : i * rangeSize (n : Int) s w + s + rangeSize (n : Int) s w
      ≤ (n : Int) := by
    have h1 := start_le_of_le (n : Int) s w (i + 1) hsn hw (by omega) (by omega)
    have h2 : (i + 1) * rangeSize (n : Int) s w
        = i * rangeSize (n : Int) s w + rangeSize (n : Int) s w := by ring
    omega
  unfold workerIter
  rw [hstop, if_neg (by omega), boundsOf_start]
  congr 1
  ring

theorem workerIter_eq_last (n : Nat) (s w : Int) (hw : 1 ≤ w) :
    workerIter n (boundsOf n s w (w - 1)) =
      intRange ((w - 1) * rangeSize (n : Int) s w + s) (n : Int) := by
  have hstop : (boundsOf n s w (w - 1)).stop = (n : Int) + 1 := by
    unfold boundsOf
    rw [if_pos rfl]
  unfold workerIter
  rw [hstop, if_pos (by omega), boundsOf_start]

theorem foldr_glue (f : Int → List Int) :
    ∀ (l : List Int) (init : List Int),
      l.foldr (fun i acc => f i ++ acc) init
        = l.foldr (fun i acc => f i ++ acc) [] ++ init := by
  intro l
  induction l with
  | nil =>
    intro init
    simp
  | cons a t ih =>
    intro init
    simp only [List.foldr_cons]
    rw [ih init, List.append_assoc]

theorem join_upto (n : Nat) (s w : Int) (hsn : s ≤ (n : Int)) (hw : 1 ≤ w) :
    ∀ (j : Nat), (j : Int) ≤ w - 1 →
      (intRange 0 (j : Int)).foldr
          (fun i acc => workerIter n (boundsOf n s w i) ++ acc) []
        = intRange s ((j : Int) * rangeSize (n : Int) s w + s) := by
  intro j
  induction j with
  | zero =>
    intro _
    push_cast
    rw [intRange_eq_nil le_rfl]
    simp only [List.foldr_nil]
    rw [zero_mul, zero_add, intRange_eq_nil le_rfl]
  | succ j ih =>
    intro hj
    have hr := rangeSize_nonneg (n : Int) s w hsn hw
    have hcast : ((j + 1 : Nat) : Int) = (j : Int) + 1 := by push_cast; ring
    rw [hcast, intRange_concat (by omega : (0 : Int) ≤ (j : Int)),
      List.foldr_append]
    simp only [List.foldr_cons, List.foldr_nil, List.append_nil]
    rw [foldr_glue, ih (by omega),
      workerIter_eq_mid n s w (j : Int) hsn hw (by omega) (by omega)]
    have hmul : (j : Int) * rangeSize (n : Int) s w
        + rangeSize (n : Int) s w
        = ((j : Int) + 1) * rangeSize (n : Int) s w := by ring
    rw [intRange_append (by nlinarith) (by nlinarith)]

theorem iterJoin_eq (n : Nat) (s w : Int) (hsn : s ≤ (n : Int))
    (hw : 1 ≤ w) :
    iterJoin n s w = intRange s (n : Int) := by
  unfold iterJoin
  have hsplit : intRange 0 w = intRange 0 (w - 1) ++ [w - 1] := by
    have h1 := intRange_concat (by omega : (0 : Int) ≤ w - 1)
    have h2 : w - 1 + 1 = w := by ring
    rw [h2] at h1
    exact h1
  rw [hsplit, List.foldr_append]
  simp only [List.foldr_cons, List.foldr_nil, List.append_nil]
  rw [foldr_glue]
  have hj := join_upto n s w hsn hw (w - 1).toNat (by omega)
  have hcast : (((w - 1).toNat : Nat) : Int) = w - 1 := by omega
  rw [hcast] at hj
  rw [hj, workerIter_eq_last n s w hw]
  have hr := rangeSize_nonneg (n : Int) s w hsn hw
  have hlast := start_le_of_le (n : Int) s w (w - 1) hsn hw (by omega) le_rfl
  exact intRange_append (by nlinarith) hlast

/-! Running every worker and folding the global best. -/

theorem runthread_noStop (clock : Nat → Int) (n : Nat)
    (cost : Nat → Nat → Int)
    (hc : ∀ i j, i < n → j < n → cost i j < INT_MAX) (b : Bounds)
    (hb0 : 0 ≤ b.start) (hbn : b.start ≤ (n : Int)) :
    runthread clock 0 n cost b =
      .ok ⟨workerIter n b, bestFrom n cost (workerIter n b)⟩ := by
  unfold runthread
  rw [if_neg (by omega)]
  have hmem : ∀ sc ∈ workerIter n b, 0 ≤ sc ∧ sc.toNat < n := by
    intro sc hsc
    unfold workerIter at hsc
    rcases mem_intRange.1 hsc with ⟨h1, h2⟩
    refine ⟨by omega, ?_⟩
    by_cases hcl : b.stop > (n : Int)
    · rw [if_pos hcl] at h2
      omega
    · rw [if_neg hcl] at h2
      omega
  rw [workerLoop_noStop clock n cost hc _ 0 _ hmem]
  simp [bestFrom]

theorem spawnAll_ok (f : Int → Except FailKind WorkerResult)
    (g : Int → WorkerResult) :
    ∀ l : List Int, (∀ i ∈ l, f i = .ok (g i)) →
      spawnAll f l = .ok (l.map g) := by
  intro l
  induction l with
  | nil =>
    intro _
    rfl
  | cons a t ih =>
    intro h
    show (match f a with
      | Except.error e => Except.error e
      | Except.ok r =>
        match spawnAll f t with
        | Except.error e => Except.error e
        | Except.ok rs => Except.ok (r :: rs)) = Except.ok ((a :: t).map g)
    rw [h a (List.mem_cons_self _ _), ih (fun i hi => h i (List.mem_cons_of_mem _ hi))]
    rfl

theorem updBest_le_left (g x : Int) : updBest g x ≤ g := by
  unfold updBest
  split_ifs <;> omega

theorem updBest_min (g x : Int) : updBest g x = min g x := by
  unfold updBest
  split_ifs <;> omega

theorem tourFold_le_init (n : Nat) (cost : Nat → Nat → Int) :
    ∀ (l : List Int) (a : Int),
      l.foldl (fun g sc => updBest g (calcLen n cost sc.toNat)) a ≤ a := by
  intro l
  induction l with
  | nil =>
    intro a
    simp
  | cons sc t ih =>
    intro a
    rw [List.foldl_cons]
    exact le_trans (ih _) (updBest_le_left _ _)

theorem tourFold_init_min (n : Nat) (cost : Nat → Nat → Int) :
    ∀ (l : List Int) (a : Int), a ≤ INT_MAX →
      l.foldl (fun g sc => updBest g (calcLen n cost sc.toNat)) a
        = min a (l.foldl (fun g sc => updBest g (calcLen n cost sc.toNat))
            INT_MAX) := by
  intro l
  induction l with
  | nil =>
    intro a ha
    simp only [List.foldl_nil]
    omega
  | cons sc t ih =>
    intro a ha
    simp only [List.foldl_cons]
    rw [ih (updBest a (calcLen n cost sc.toNat))
        (le_trans (updBest_le_left _ _) ha),
      ih (updBest INT_MAX (calcLen n cost sc.toNat)) (updBest_le_left _ _)]
    rw [updBest_min, updBest_min]
    omega

theorem globalBest_join (n : Nat) (cost : Nat → Nat → Int)
    (iterF : Int → List Int) :
    ∀ (idx : List Int) (a : Int), a ≤ INT_MAX →
      (idx.map (fun i =>
          (⟨iterF i, bestFrom n cost (iterF i)⟩ : WorkerResult))).foldl
          (fun g r => if r.best < g then r.best else g) a
        = (idx.foldr (fun i acc => iterF i ++ acc) []).foldl
            (fun g sc => updBest g (calcLen n cost sc.toNat)) a := by
  intro idx
  induction idx with
  | nil =>
    intro a _
    rfl
  | cons i t ih =>
    intro a ha
    simp only [List.map_cons, List.foldl_cons, List.foldr_cons,
      List.foldl_append]
    have h1 : (if (⟨iterF i, bestFrom n cost (iterF i)⟩ : WorkerResult).best < a
        then (⟨iterF i, bestFrom n cost (iterF i)⟩ : WorkerResult).best else a)
        = updBest a (bestFrom n cost (iterF i)) := rfl
    rw [h1]
    have h2 : (iterF i).foldl
        (fun g sc => updBest g (calcLen n cost sc.toNat)) a
        = updBest a (bestFrom n cost (iterF i)) := by
      rw [tourFold_init_min n cost (iterF i) a ha, updBest_min]
      rfl
    rw [← h2]
    exact ih _ (le_trans (tourFold_le_init n cost (iterF i) a) ha)

/-- The search phase with no stop time: the global best over w workers is
exactly the folded best over every start city in [s, n), however the range
is partitioned. -/
theorem searchCore_eq (clock : Nat → Int) (n : Nat)
    (cost : Nat → Nat → Int) (s w : Int) (hs0 : 0 ≤ s)
    (hsn : s ≤ (n : Int)) (hw : 1 ≤ w)
    (hc : ∀ i j, i < n → j < n → cost i j < INT_MAX) :
    searchCore clock 0 n cost s w
      = .ok (bestFrom n cost (intRange s (n : Int))) := by
  unfold searchCore
  have hr := rangeSize_nonneg (n : Int) s w hsn hw
  have hworker : ∀ i ∈ intRange 0 w,
      runthread clock 0 n cost (boundsOf n s w i)
        = .ok ⟨workerIter n (boundsOf n s w i),
            bestFrom n cost (workerIter n (boundsOf n s w i))⟩ := by
    intro i hi
    rcases mem_intRange.1 hi with ⟨hi0, hiw⟩
    refine runthread_noStop clock n cost hc _ ?_ ?_
    · rw [boundsOf_start]
      nlinarith
    · rw [boundsOf_start]
      exact start_le_of_le (n : Int) s w i hsn hw hi0 (by omega)
  rw [spawnAll_ok _ _ _ hworker]
  show Except.ok (globalBest _) = _
  congr 1
  unfold globalBest
  rw [globalBest_join n cost _ (intRange 0 w) INT_MAX le_rfl]
  have hjoin : (intRange 0 w).foldr
      (fun i acc => workerIter n (boundsOf n s w i) ++ acc) []
      = intRange s (n : Int) := iterJoin_eq n s w hsn hw
  rw [hjoin]
  rfl

theorem updBest_le_right (g x : Int) : updBest g x ≤ x := by
  unfold updBest
  split_ifs <;> omega

theorem tourFold_le_mem (n : Nat) (cost : Nat → Nat → Int) :
    ∀ (l : List Int) (a : Int) (x : Int), x ∈ l →
      l.foldl (fun g sc => updBest g (calcLen n cost sc.toNat)) a
        ≤ calcLen n cost x.toNat := by
  intro l
  induction l with
  | nil =>
    intro a x hx
    simp at hx
  | cons sc t ih =>
    intro a x hx
    rw [List.foldl_cons]
    rcases List.mem_cons.1 hx with h | h
    · subst h
      exact le_trans (tourFold_le_init n cost t _) (updBest_le_right _ _)
    · exact ih _ x h

theorem tourFold_mem_or (n : Nat) (cost : Nat → Nat → Int) :
    ∀ (l : List Int) (a : Int),
      l.foldl (fun g sc => updBest g (calcLen n cost sc.toNat)) a = a ∨
      ∃ x ∈ l, l.foldl (fun g sc => updBest g (calcLen n cost sc.toNat)) a
        = calcLen n cost x.toNat := by
  intro l
  induction l with
  | nil =>
    intro a
    exact Or.inl rfl
  | cons sc t ih =>
    intro a
    rw [List.foldl_cons]
    rcases ih (updBest a (calcLen n cost sc.toNat)) with h | ⟨x, hx, h⟩
    · rw [h]
      unfold updBest
      split_ifs with hlt
      · exact Or.inr ⟨sc, List.mem_cons_self _ _, rfl⟩
      · exact Or.inl rfl
    · exact Or.inr ⟨x, List.mem_cons_of_mem _ hx, h⟩

/-! The start-offset-exceeds-city-count path. -/

theorem start_gt_of_gt (n s w i : Int) (hs : n < s) (hw : 1 ≤ w)
    (hi0 : 0 ≤ i) (hiw : i < w) : n < i * rangeSize n s w + s := by
  have hneg : rangeSize n s w = -((s - n).tdiv w) := by
    unfold rangeSize
    rw [show n - s = -(s - n) by ring, Int.neg_tdiv]
  have hq : (s - n).tdiv w = (s - n) / w := Int.tdiv_eq_ediv (by omega) (by omega)
  set q := (s - n) / w with hqdef
  have hrq : rangeSize n s w = -q := by rw [hneg, hq]
  have hq0 : 0 ≤ q := Int.ediv_nonneg (by omega) (by omega)
  have hwq : w * q ≤ s - n := by
    have h1 := Int.ediv_add_emod (s - n) w
    have h2 := Int.emod_nonneg (s - n) (by omega : w ≠ 0)
    rw [← hqdef] at h1
    omega
  have hiq : i * q ≤ (w - 1) * q := mul_le_mul_of_nonneg_right (by omega) hq0
  have he : (w - 1) * q = w * q - q := by ring
  have hgoal : i * q < s - n := by
    rcases eq_or_lt_of_le hq0 with h | h
    · have hz : i * q = 0 := by rw [← h, mul_zero]
      omega
    · omega
  have hir : i * rangeSize n s w = -(i * q) := by rw [hrq]; ring
  omega

theorem runthread_startExceeds (clock : Nat → Int) (stopTime : Int)
    (n : Nat) (cost : Nat → Nat → Int) (b : Bounds)
    (h : (n : Int) < b.start) :
    runthread clock stopTime n cost b = .error .startExceeds := by
  unfold runthread
  rw [if_pos (by omega)]

theorem spawnAll_cons (f : Int → Except FailKind WorkerResult) (a : Int)
    (t : List Int) :
    spawnAll f (a :: t) =
      match f a with
      | Except.error e => Except.error e
      | Except.ok r =>
        match spawnAll f t with
        | Except.error e => Except.error e
        | Except.ok rs => Except.ok (r :: rs) := rfl

theorem searchCore_startExceeds (clock : Nat → Int) (stopTime : Int)
    (n : Nat) (cost : Nat → Nat → Int) (s w : Int)
    (hs : (n : Int) < s) (hw : 1 ≤ w) :
    searchCore clock stopTime n cost s w = .error .startExceeds := by
  unfold searchCore
  rw [intRange_eq_cons (by omega : (0 : Int) < w), spawnAll_cons,
    runthread_startExceeds clock stopTime n cost _ (by
      rw [boundsOf_start]
      have := start_gt_of_gt (n : Int) s w 0 hs hw le_rfl (by omega)
      omega)]

theorem workerIter_mem_bounds (n : Nat) (s w i : Int) (hs0 : 0 ≤ s)
    (hsn : s ≤ (n : Int)) (hw : 1 ≤ w) (hi0 : 0 ≤ i) (hiw : i < w) :
    ∀ sc ∈ workerIter n (boundsOf (n : Int) s w i),
      s ≤ sc ∧ sc < (n : Int) := by
  intro sc hsc
  unfold workerIter at hsc
  rcases mem_intRange.1 hsc with ⟨h1, h2⟩
  have hr := rangeSize_nonneg (n : Int) s w hsn hw
  constructor
  · rw [boundsOf_start] at h1
    nlinarith
  · by_cases hcl : (boundsOf (n : Int) s w i).stop > (n : Int)
    · rw [if_pos hcl] at h2
      omega
    · rw [if_neg hcl] at h2
      omega

theorem runProgram_nonpos_crash (cv : List City) (s w : Int) (hw : w ≤ 0) :
    runProgram cv s w = Fate.crash := by
  unfold runProgram runProgramCore
  by_cases h0 : w = 0
  · rw [if_pos h0]
  · rw [if_neg h0, if_pos (by omega)]

theorem runProgram_reportError (cv : List City) (s w : Int)
    (hs : (cv.length : Int) < s) (hw : 1 ≤ w) :
    runProgram cv s w = Fate.configError := by
  unfold runProgram runProgramCore
  rw [if_neg (by omega), if_neg (by omega),
    searchCore_startExceeds (fun _ => 0) 0 cv.length (initCosts cv) s w hs hw]

/-! The claims. -/

/-- C1 counterexample: at cityCount 10, workerCount 3, startCityOffset 0
the partitioning step in main hands the last worker the bound pair
(6, 11): its end is cities.size() + 1 = 11, not 10 as the claim states, so
the raw assigned ranges are not [0,3), [3,6), [6,10). -/
theorem C1_counterexample :
    boundsOf 10 0 3 2 = ⟨6, 11⟩ ∧ (boundsOf 10 0 3 2).stop ≠ 10 := by
  decide

/-- C1 (amended): for s ≤ N and w ≥ 1, main assigns worker i the start
i*range + s; every worker before the last receives end (i+1)*range + s,
while the last worker's end is set to N + 1 and clamped to N inside the
worker before iterating; the clamped per-worker ranges partition [s, N)
exactly, and in the concrete scenario N = 10, w = 3, s = 0 the effective
ranges are [0,3), [3,6), [6,10). -/
theorem C1_partition (n : Nat) (s w : Int) (hs0 : 0 ≤ s)
    (hsn : s ≤ (n : Int)) (hw : 1 ≤ w) :
    (∀ i : Int, (boundsOf (n : Int) s w i).start
        = i * rangeSize (n : Int) s w + s) ∧
    (∀ i : Int, i ≠ w - 1 → (boundsOf (n : Int) s w i).stop
        = (i + 1) * rangeSize (n : Int) s w + s) ∧
    (boundsOf (n : Int) s w (w - 1)).stop = (n : Int) + 1 ∧
    iterJoin n s w = intRange s (n : Int) ∧
    (workerIter 10 (boundsOf 10 0 3 0) = intRange 0 3 ∧
      workerIter 10 (boundsOf 10 0 3 1) = intRange 3 6 ∧
      workerIter 10 (boundsOf 10 0 3 2) = intRange 6 10) := by
  refine ⟨fun i => rfl, ?_, ?_, iterJoin_eq n s w hsn hw, by decide, by decide,
    by decide⟩
  · intro i hi
    show (if i = w - 1 then (n : Int) + 1
      else i * rangeSize (n : Int) s w + s + rangeSize (n : Int) s w) = _
    rw [if_neg hi]
    ring
  · show (if w - 1 = w - 1 then (n : Int) + 1
      else (w - 1) * rangeSize (n : Int) s w + s + rangeSize (n : Int) s w)
      = (n : Int) + 1
    rw [if_pos rfl]

/-- C1 witness: the amended statement instantiated at N = 10, s = 0,
w = 3. -/
theorem C1_partition_witness :
    ((0 : Int) ≤ 0 ∧ (0 : Int) ≤ ((10 : Nat) : Int) ∧ (1 : Int) ≤ 3) ∧
    (iterJoin 10 0 3 = intRange 0 ((10 : Nat) : Int) ∧
      workerIter 10 (boundsOf 10 0 3 2) = intRange 6 10) := by
  refine ⟨⟨by decide, by decide, by decide⟩, ?_, ?_⟩
  · exact (C1_partition 10 0 3 (by decide) (by decide) (by decide)).2.2.2.1
  · exact (C1_partition 10 0 3 (by decide) (by decide) (by decide)).2.2.2.2.2.2

/-- C2 counterexample: a run configured with worker count 0 (non-positive)
reaches the division by zero in the range computation and dies with no
configuration diagnostic: it crashes rather than reporting a configuration
error. -/
theorem C2_counterexample :
    runProgram [⟨0, 0⟩] 0 0 = Fate.crash ∧ Fate.crash ≠ Fate.configError := by
  decide

/-- C2 (amended): a start offset exceeding the city count is reported:
every worker hits the start-city configuration check before any tour
construction, prints the diagnostic and exits with a non-zero status. A
non-positive worker count, however, is never validated: the process
crashes without a configuration report (division by zero when the count is
0, a failed bounds-vector allocation when it is negative). -/
theorem C2_configError (cv : List City) (s w : Int)
    (hs : (cv.length : Int) < s) (hw : 1 ≤ w) :
    runProgram cv s w = Fate.configError ∧
    (∀ i : Int, 0 ≤ i → i < w →
      runthread (fun _ => 0) 0 cv.length (initCosts cv)
          (boundsOf (cv.length : Int) s w i)
        = .error .startExceeds) ∧
    (∀ w2 : Int, w2 ≤ 0 → runProgram cv s w2 = Fate.crash) := by
  refine ⟨runProgram_reportError cv s w hs hw, ?_, ?_⟩
  · intro i hi0 hiw
    apply runthread_startExceeds
    rw [boundsOf_start]
    exact start_gt_of_gt (cv.length : Int) s w i hs hw hi0 hiw
  · intro w2 hw2
    exact runProgram_nonpos_crash cv s w2 hw2

/-- C2 witness: the amended statement at one city, start offset 5, two
workers. -/
theorem C2_configError_witness :
    ((([(⟨0, 0⟩ : City)].length : Int) < 5 ∧ (1 : Int) ≤ 2) ∧
      runProgram [⟨0, 0⟩] 5 2 = Fate.configError ∧
      runProgram [⟨0, 0⟩] 5 0 = Fate.crash) := by
  have h := C2_configError [⟨0, 0⟩] 5 2 (by decide) (by decide)
  exact ⟨⟨by decide, by decide⟩, h.1, h.2.2 0 (by decide)⟩

/-- C3: the code does not fail with a diagnostic when no tour is computed.
On empty city input (every partition empty, so no worker produces a
result) and likewise when the start offset equals the city count,
global_best_path stays NULL and main calls printPath through it: undefined
behaviour (a segfault when an output file is given, a silent zero-status
exit when not), not the claimed diagnostic with non-zero status. -/
theorem C3_no_result_crash :
    runProgram [] 0 1 = Fate.crash ∧
    runProgram [⟨0, 0⟩, ⟨3, 4⟩] 2 1 = Fate.crash := by
  decide

/-- C4: for any cost matrix whose entries are below INT_MAX, any city
count n ≥ 1 and any start city below n, the built tour is a permutation of
[0, n): it has length n, every index below n occurs in it exactly once,
and the start city is first. -/
theorem C4_tour_perm (n : Nat) (cost : Nat → Nat → Int) (s : Nat)
    (hs : s < n) (hc : ∀ i j, i < n → j < n → cost i j < INT_MAX) :
    ∃ t c, calcPath n cost s = some (t, c) ∧ t.length = n ∧
      (∀ x, x < n → t.count x = 1) ∧ t.head? = some s := by
  obtain ⟨t, last, hcp, hlen, hnd, hbnd, hhead, -⟩ :=
    calcPath_spec n cost s hs hc
  refine ⟨t, _, hcp, hlen, ?_, hhead⟩
  intro x hx
  exact List.count_eq_one_of_mem hnd (mem_of_full n t hnd hbnd hlen x hx)

/-- C4 witness: the permutation property at n = 2 over the constant
matrix. -/
theorem C4_tour_perm_witness :
    ((0 < 2 ∧ ∀ i j, i < 2 → j < 2 → constCost i j < INT_MAX) ∧
      ∃ t c, calcPath 2 constCost 0 = some (t, c) ∧ t.length = 2 ∧
        (∀ x, x < 2 → t.count x = 1) ∧ t.head? = some 0) := by
  refine ⟨⟨by decide, fun i j _ _ => by show (1 : Int) < INT_MAX; decide⟩, ?_⟩
  exact C4_tour_perm 2 constCost 0 (by decide) (fun i j _ _ => by show (1 : Int) < INT_MAX; decide)

/-- C5: the cost returned with the tour equals the sum of matrix entries
over consecutive tour pairs plus the closing edge from the last city back
to the start, recomputed independently via sumEdges; and for N = 1 the
tour is the single city with cost 0. -/
theorem C5_tour_cost (n : Nat) (cost : Nat → Nat → Int) (s : Nat)
    (hs : s < n) (hc : ∀ i j, i < n → j < n → cost i j < INT_MAX) :
    (∃ t last c, calcPath n cost s = some (t, c) ∧ t.head? = some s ∧
      t.getLast? = some last ∧ c = sumEdges cost t + cost last s) ∧
    (∀ a : City, calcPath 1 (initCosts [a]) 0 = some ([0], 0)) := by
  constructor
  · obtain ⟨t, last, hcp, -, -, -, hhead, hlast⟩ :=
      calcPath_spec n cost s hs hc
    exact ⟨t, last, _, hcp, hhead, hlast, rfl⟩
  · intro a
    show (some ([0], 0 + initCosts [a] 0 0) : Option (List Nat × Int))
      = some ([0], 0)
    rw [initCosts_get [a] 0 0 (by simp) (by simp)]
    show (some ([0], 0 + edgeCost a a) : Option (List Nat × Int))
      = some ([0], 0)
    rw [edgeCost_self]
    rfl

/-- C5 witness: the cost identity at n = 2 over the constant matrix,
together with the single-city case. -/
theorem C5_tour_cost_witness :
    ((0 < 2 ∧ ∀ i j, i < 2 → j < 2 → constCost i j < INT_MAX) ∧
      (∃ t last c, calcPath 2 constCost 0 = some (t, c) ∧
        t.head? = some 0 ∧ t.getLast? = some last ∧
        c = sumEdges constCost t + constCost last 0) ∧
      calcPath 1 (initCosts [⟨0, 0⟩]) 0 = some ([0], 0)) := by
  have h := C5_tour_cost 2 constCost 0 (by decide) (fun i j _ _ => by show (1 : Int) < INT_MAX; decide)
  exact ⟨⟨by decide, fun i j _ _ => by show (1 : Int) < INT_MAX; decide⟩, h.1, h.2 ⟨0, 0⟩⟩

/-- C6: whenever some unvisited city with in-range cost exists, the scan
selects an unvisited city whose distance from the current city is minimal
among all unvisited cities, and every unvisited city of lower index has
strictly greater cost (so ties go to the lowest index); consequently on
the four cities (0,0), (0,3), (4,3), (4,0) the greedy tour from city 0 is
[0, 1, 2, 3] with cost 14. -/
theorem C6_greedy_step (n : Nat) (cost : Nat → Nat → Int)
    (inpath : Nat → Bool) (curr : Nat)
    (hex : ∃ ix, ix < n ∧ inpath ix = false ∧ cost curr ix < INT_MAX) :
    (∃ c : Nat, c < n ∧
      scanClosest n cost inpath curr = ((c : Int), cost curr c) ∧
      inpath c = false ∧
      (∀ ix, ix < n → inpath ix = false → cost curr c ≤ cost curr ix) ∧
      (∀ ix, ix < c → inpath ix = false → cost curr c < cost curr ix)) ∧
    calcPath 4 (initCosts demoCities) 0 = some ([0, 1, 2, 3], 14) := by
  constructor
  · rcases scanClosest_spec n cost inpath curr with ⟨-, hall⟩ | hgood
    · obtain ⟨ix, h1, h2, h3⟩ := hex
      have := hall ix h1 h2
      omega
    · obtain ⟨c, h1, h2, h3, -, h5, h6⟩ := hgood
      exact ⟨c, h1, h2, h3, h5, h6⟩
  · decide

/-- C6 witness: the selection property instantiated at n = 2 over the
constant matrix with nothing visited, current city 0. -/
theorem C6_greedy_step_witness :
    (∃ ix, ix < 2 ∧ (fun _ : Nat => false) ix = false ∧
      constCost 0 ix < INT_MAX) ∧
    ((∃ c : Nat, c < 2 ∧
      scanClosest 2 constCost (fun _ : Nat => false) 0
        = ((c : Int), constCost 0 c) ∧
      (fun _ : Nat => false) c = false ∧
      (∀ ix, ix < 2 → (fun _ : Nat => false) ix = false →
        constCost 0 c ≤ constCost 0 ix) ∧
      (∀ ix, ix < c → (fun _ : Nat => false) ix = false →
        constCost 0 c < constCost 0 ix)) ∧
    calcPath 4 (initCosts demoCities) 0 = some ([0, 1, 2, 3], 14)) := by
  have hex : ∃ ix, ix < 2 ∧ (fun _ : Nat => false) ix = false ∧
      constCost 0 ix < INT_MAX :=
    ⟨0, by decide, rfl, by show (1 : Int) < INT_MAX; decide⟩
  exact ⟨hex, C6_greedy_step 2 constCost (fun _ : Nat => false) 0 hex⟩

/-- C7: with no deadline the search over w ≥ 1 workers returns the same
result as over a single worker: the folded minimum tour cost over every
start city in [s, n), independent of the partition; that value is at most
every start city's tour cost and, for a non-empty range whose tour costs
are below INT_MAX, is attained at one of them. -/
theorem C7_worker_count_equiv (clock : Nat → Int) (n : Nat)
    (cost : Nat → Nat → Int) (s w : Int) (hs0 : 0 ≤ s)
    (hsn : s ≤ (n : Int)) (hw : 1 ≤ w)
    (hc : ∀ i j, i < n → j < n → cost i j < INT_MAX) :
    searchCore clock 0 n cost s w = searchCore clock 0 n cost s 1 ∧
    searchCore clock 0 n cost s w
      = .ok (bestFrom n cost (intRange s (n : Int))) ∧
    (∀ x ∈ intRange s (n : Int),
      bestFrom n cost (intRange s (n : Int)) ≤ calcLen n cost x.toNat) ∧
    (s < (n : Int) →
      (∀ x ∈ intRange s (n : Int), calcLen n cost x.toNat < INT_MAX) →
      ∃ x ∈ intRange s (n : Int),
        bestFrom n cost (intRange s (n : Int)) = calcLen n cost x.toNat) := by
  have h1 := searchCore_eq clock n cost s w hs0 hsn hw hc
  have h2 := searchCore_eq clock n cost s 1 hs0 hsn le_rfl hc
  refine ⟨by rw [h1, h2], h1, ?_, ?_⟩
  · intro x hx
    exact tourFold_le_mem n cost (intRange s (n : Int)) INT_MAX x hx
  · intro hlt hlens
    rcases tourFold_mem_or n cost (intRange s (n : Int)) INT_MAX with h | h
    · exfalso
      have hsmem : s ∈ intRange s (n : Int) := mem_intRange.2 ⟨le_rfl, hlt⟩
      have ha := tourFold_le_mem n cost (intRange s (n : Int)) INT_MAX s hsmem
      have hb2 := hlens s hsmem
      omega
    · exact h

/-- C7 witness: the equivalence at n = 2, s = 0, two workers versus one,
over the constant matrix. -/
theorem C7_worker_count_equiv_witness :
    (((0 : Int) ≤ 0 ∧ (0 : Int) ≤ ((2 : Nat) : Int) ∧ (1 : Int) ≤ 2 ∧
        ∀ i j, i < 2 → j < 2 → constCost i j < INT_MAX) ∧
      searchCore (fun _ => 0) 0 2 constCost 0 2
        = searchCore (fun _ => 0) 0 2 constCost 0 1 ∧
      searchCore (fun _ => 0) 0 2 constCost 0 2
        = .ok (bestFrom 2 constCost (intRange 0 ((2 : Nat) : Int)))) := by
  have h := C7_worker_count_equiv (fun _ => 0) 2 constCost 0 2 (by decide)
    (by decide) (by decide) (fun i j _ _ => by show (1 : Int) < INT_MAX; decide)
  exact ⟨⟨by decide, by decide, by decide,
    fun i j _ _ => by show (1 : Int) < INT_MAX; decide⟩, h.1, h.2.1⟩

/-- C8: a worker with no stop time set evaluates every start city of its
clamped range; with a stop time already passed at its first check it
evaluates none and its INT_MAX local best never changes the global best;
and in general what it evaluates is a take-first part of its range, each
evaluated start city contributing its complete tour cost — the stop time
is consulted only between start-city iterations. -/
theorem C8_deadline (clock : Nat → Int) (stopTime : Int) (n : Nat)
    (cost : Nat → Nat → Int) (b : Bounds) (hb0 : 0 ≤ b.start)
    (hbn : b.start ≤ (n : Int))
    (hc : ∀ i j, i < n → j < n → cost i j < INT_MAX) :
    (stopTime = 0 → runthread clock stopTime n cost b =
      .ok ⟨workerIter n b, bestFrom n cost (workerIter n b)⟩) ∧
    (0 < stopTime → stopTime < clock 0 →
      runthread clock stopTime n cost b = .ok ⟨[], INT_MAX⟩ ∧
      (∀ g : Int, g ≤ INT_MAX → updBest g INT_MAX = g)) ∧
    (∃ j res, runthread clock stopTime n cost b = .ok res ∧
      res.evaluated = (workerIter n b).take j ∧
      res.best = ((workerIter n b).take j).foldl
        (fun g sc => updBest g (calcLen n cost sc.toNat)) INT_MAX) := by
  have hmem : ∀ sc ∈ workerIter n b, 0 ≤ sc ∧ sc.toNat < n := by
    intro sc hsc
    unfold workerIter at hsc
    rcases mem_intRange.1 hsc with ⟨h1, h2⟩
    refine ⟨by omega, ?_⟩
    by_cases hcl : b.stop > (n : Int)
    · rw [if_pos hcl] at h2
      omega
    · rw [if_neg hcl] at h2
      omega
  refine ⟨?_, ?_, ?_⟩
  · intro h0
    subst h0
    exact runthread_noStop clock n cost hc b hb0 hbn
  · intro h1 h2
    constructor
    · unfold runthread
      rw [if_neg (by omega)]
      exact workerLoop_breakNow clock stopTime n cost _ _ h1 h2
    · intro g hg
      unfold updBest
      rw [if_neg (by omega)]
  · obtain ⟨j, hj⟩ := workerLoop_take clock stopTime n cost hc
      (workerIter n b) 0 ⟨[], INT_MAX⟩ hmem
    refine ⟨j, ⟨(workerIter n b).take j,
      ((workerIter n b).take j).foldl
        (fun g sc => updBest g (calcLen n cost sc.toNat)) INT_MAX⟩,
      ?_, rfl, rfl⟩
    unfold runthread
    rw [if_neg (by omega)]
    exact hj

/-- C8 witness: the worker with bounds (0, 2) on a 2-city constant matrix
and no stop time evaluates its whole range. -/
theorem C8_deadline_witness :
    (((0 : Int) ≤ (Bounds.mk 0 2).start ∧
        (Bounds.mk 0 2).start ≤ ((2 : Nat) : Int) ∧
        ∀ i j, i < 2 → j < 2 → constCost i j < INT_MAX) ∧
      runthread (fun _ => 0) 0 2 constCost ⟨0, 2⟩
        = .ok ⟨workerIter 2 ⟨0, 2⟩,
            bestFrom 2 constCost (workerIter 2 ⟨0, 2⟩)⟩) := by
  have h := C8_deadline (fun _ => 0) 0 2 constCost ⟨0, 2⟩ (by decide)
    (by decide) (fun i j _ _ => by show (1 : Int) < INT_MAX; decide)
  exact ⟨⟨by decide, by decide,
    fun i j _ _ => by show (1 : Int) < INT_MAX; decide⟩, h.1 rfl⟩

/-- C9: the built matrix is symmetric, has zero diagonal and non-negative
entries, and each in-bounds entry is the Euclidean distance between the
two cities rounded to the nearest integer with ties rounding up (the
roundSqrt characterisation: 2k-1 ≤ 2*sqrt(m) < 2k+1 with the lower bound
attained at ties). -/
theorem C9_matrix (cv : List City) (i j : Nat) (hi : i < cv.length)
    (hj : j < cv.length) :
    initCosts cv i j = initCosts cv j i ∧
    initCosts cv i i = 0 ∧
    0 ≤ initCosts cv i j ∧
    initCosts cv i j
      = (roundSqrt (sqDist (cityAt cv i) (cityAt cv j)).toNat : Int) ∧
    (∀ m : Nat,
      4 * m < (2 * roundSqrt m + 1) * (2 * roundSqrt m + 1) ∧
      (roundSqrt m = 0 ∨
        (2 * roundSqrt m - 1) * (2 * roundSqrt m - 1) ≤ 4 * m)) := by
  refine ⟨?_, ?_, ?_, ?_, roundSqrt_spec⟩
  · rw [initCosts_get cv i j hi hj, initCosts_get cv j i hj hi]
    exact edgeCost_comm _ _
  · rw [initCosts_get cv i i hi hi]
    exact edgeCost_self _
  · rw [initCosts_get cv i j hi hj]
    exact edgeCost_nonneg _ _
  · rw [initCosts_get cv i j hi hj]
    rfl

/-- C9 witness: the matrix properties at entry (0, 1) of the scenario-A
cities, whose rounded distance is 3. -/
theorem C9_matrix_witness :
    ((0 < demoCities.length ∧ 1 < demoCities.length) ∧
      initCosts demoCities 0 1 = initCosts demoCities 1 0 ∧
      initCosts demoCities 0 0 = 0 ∧
      0 ≤ initCosts demoCities 0 1 ∧
      initCosts demoCities 0 1 = 3) := by
  have h := C9_matrix demoCities 0 1 (by decide) (by decide)
  exact ⟨⟨by decide, by decide⟩, h.1, h.2.1, h.2.2.1, by decide⟩

/-- C10: every worker's iterated start cities lie in [s, n) — the end is
clamped to the city count before the loop, so the tour builder is only
invoked in bounds — and across all workers each start city of [s, n) is
iterated exactly once, although the last worker's assigned raw bound is
n + 1, past the final valid index. -/
theorem C10_clamped_partition (n : Nat) (s w : Int) (hs0 : 0 ≤ s)
    (hsn : s ≤ (n : Int)) (hw : 1 ≤ w) :
    (∀ i : Int, 0 ≤ i → i < w →
      ∀ sc ∈ workerIter n (boundsOf (n : Int) s w i),
        s ≤ sc ∧ sc < (n : Int)) ∧
    (∀ sc : Int, (iterJoin n s w).count sc
        = if s ≤ sc ∧ sc < (n : Int) then 1 else 0) ∧
    (boundsOf (n : Int) s w (w - 1)).stop = (n : Int) + 1 := by
  refine ⟨?_, ?_, ?_⟩
  · intro i hi0 hiw
    exact workerIter_mem_bounds n s w i hs0 hsn hw hi0 hiw
  · intro sc
    rw [iterJoin_eq n s w hsn hw, count_intRange]
  · show (if w - 1 = w - 1 then (n : Int) + 1
      else (w - 1) * rangeSize (n : Int) s w + s + rangeSize (n : Int) s w)
      = (n : Int) + 1
    rw [if_pos rfl]

/-- C10 witness: the clamped in-bounds ranges and the exactly-once count
at N = 10, s = 0, w = 3. -/
theorem C10_clamped_partition_witness :
    (((0 : Int) ≤ 0 ∧ (0 : Int) ≤ ((10 : Nat) : Int) ∧ (1 : Int) ≤ 3) ∧
      (∀ sc ∈ workerIter 10 (boundsOf ((10 : Nat) : Int) 0 3 2),
        (0 : Int) ≤ sc ∧ sc < ((10 : Nat) : Int)) ∧
      (iterJoin 10 0 3).count 4 = 1) := by
  have h := C10_clamped_partition 10 0 3 (by decide) (by decide) (by decide)
  refine ⟨⟨by decide, by decide, by decide⟩, h.1 2 (by decide) (by decide), ?_⟩
  rw [h.2.1 4]
  decide

end TSP
